import Mathlib

/-!
Verification of the Connect-4 move-selection engine in
`Assignment 2/Connect4 Assignment Starter Code/Player.py` (class AIPlayer).

The board is a 6x7 grid, row 0 at the top, cells in {0 = EMPTY, 1, 2}.
Python mutable numpy arrays are modelled as functions `Nat -> Nat -> Nat`;
every helper that in Python receives an array and might mutate it returns,
next to its value, the array object as the caller observes it after the
call (the source copies the argument first, so that component is the
argument itself).  Python's `-np.inf` / `np.inf` sentinels and the mix of
ints and floats in the search are modelled by the extended rationals `EV`.
The unbounded recursion of the Python search is modelled with an explicit
fuel parameter; `none` models a computation that would not finish (or the
unreachable `board[None][col]` crash), and the entry points run with fuel
`SEARCH_FUEL` which is proved sufficient, so with that fuel the model
returns exactly what the Python code returns.
-/

namespace Connect4

/-- Global constant `MAX_DEPTH = 30` from Player.py line 6. -/
def MAX_DEPTH : ℕ := 30

/-- A board: `b row col` is the cell content, row 0 the top, row 5 the
floor, columns 0..6.  Cells outside that range are never read by any of
the embedded functions. -/
abbrev Board := ℕ → ℕ → ℕ

/-- Write a single cell (`frame[row][col] = v` in the source). -/
def setCell (b : Board) (row col v : ℕ) : Board :=
  fun r c => if r = row ∧ c = col then v else b r c

/-- AIPlayer.get_opponent: 1 maps to 2, everything else to 1. -/
def get_opponent (player : ℕ) : ℕ :=
  if player = 1 then 2 else 1

/-- The column `col` of the board as a list, top to bottom
(`board[:, col]` in the source). -/
def colArr (b : Board) (col : ℕ) : List ℕ :=
  (List.range 6).map fun r => b r col

/-- The row `row` of the board as a list, left to right
(`board[row, :]` in the source). -/
def rowArr (b : Board) (row : ℕ) : List ℕ :=
  (List.range 7).map fun c => b row c

/-- AIPlayer.get_valid_cols: the columns `0..6` that contain at least one
EMPTY cell, in ascending order (`for col in range(7): if 0 in board[:, col]`). -/
def get_valid_cols (b : Board) : List ℕ :=
  (List.range 7).filter fun col => (colArr b col).contains 0

/-- AIPlayer.get_valid_row: scan the rows of `col` in the order
`range(0, 6, 1)`, i.e. from the top row 0 down to the floor row 5, and
return the first EMPTY row; `none` models the implicit Python `return None`
when the column has no EMPTY cell. -/
def get_valid_row (b : Board) (col : ℕ) : Option ℕ :=
  (List.range 6).find? fun r => b r col == 0

/-- The board after the simulated drop of `v` into `col`
(`frame[get_valid_row(frame, col)][col] = v`); used in theorem statements.
If the column is full (the searches never call it then) the board is
returned unchanged. -/
def dropPiece (b : Board) (col v : ℕ) : Board :=
  match get_valid_row b col with
  | some row => setCell b row col v
  | none => b

/-- AIPlayer.eval_frame: score one 4-cell window.  Two independent
if-chains over the counts of the player's pieces, the opponent's pieces
and the EMPTY cells, added together. -/
def eval_frame (frame : List ℕ) (player opponent : ℕ) : ℤ :=
  (if frame.count player = 4 then 100
   else if frame.count player = 3 ∧ frame.count 0 = 1 then 69
   else if frame.count player = 2 ∧ frame.count 0 = 2 then 30
   else if frame.count player = 1 ∧ frame.count 0 = 3 then 5
   else 0)
  +
  (if frame.count opponent = 4 then -95
   else if frame.count opponent = 3 ∧ frame.count 0 = 1 then -80
   else if frame.count opponent = 2 ∧ frame.count 0 = 2 then -30
   else if frame.count opponent = 1 ∧ frame.count 0 = 3 then -5
   else 0)

/-- AIPlayer.evaluation_function, lines 280-304 of Player.py, with
`player` standing for `self.player_number`.  Four loop nests:
horizontal slices `row_arr[col:col+4]`, vertical slices
`col_arr[row:row+4]`, the diagonals `[board[row+i][col+i]]`, and the
fourth nest which reads `[board[row+3-i][col+1] for i in range(4)]`,
exactly as written in the source (note `col+1`, not `col+i`). -/
def evaluation_function (b : Board) (player : ℕ) : ℤ :=
  let opponent := get_opponent player
  ((List.range 6).map fun row =>
    ((List.range 4).map fun col =>
      eval_frame (((rowArr b row).drop col).take 4) player opponent).sum).sum
  +
  ((List.range 7).map fun col =>
    ((List.range 3).map fun row =>
      eval_frame (((colArr b col).drop row).take 4) player opponent).sum).sum
  +
  ((List.range 3).map fun row =>
    ((List.range 4).map fun col =>
      eval_frame ((List.range 4).map fun i => b (row + i) (col + i)) player opponent).sum).sum
  +
  ((List.range 3).map fun row =>
    ((List.range 4).map fun col =>
      eval_frame ((List.range 4).map fun i => b (row + 3 - i) (col + 1)) player opponent).sum).sum

/-- Reference evaluator following the specification text (section 4.3):
sum `eval_frame` over exactly the 69 length-4 windows of the four
orientations - 24 horizontal, 21 vertical, 12 windows
`[b (row+i) (col+i)]` and 12 anti-diagonal windows
`[b (row+3-i) (col+i)]`.  It differs from `evaluation_function` only in
the fourth loop nest, where the source reads column `col+1` instead of
`col+i`. -/
def spec_window_sum (b : Board) (player : ℕ) : ℤ :=
  let opponent := get_opponent player
  ((List.range 6).map fun row =>
    ((List.range 4).map fun col =>
      eval_frame (((rowArr b row).drop col).take 4) player opponent).sum).sum
  +
  ((List.range 7).map fun col =>
    ((List.range 3).map fun row =>
      eval_frame (((colArr b col).drop row).take 4) player opponent).sum).sum
  +
  ((List.range 3).map fun row =>
    ((List.range 4).map fun col =>
      eval_frame ((List.range 4).map fun i => b (row + i) (col + i)) player opponent).sum).sum
  +
  ((List.range 3).map fun row =>
    ((List.range 4).map fun col =>
      eval_frame ((List.range 4).map fun i => b (row + 3 - i) (col + i)) player opponent).sum).sum

/-- Search values: the rationals extended with the two numpy infinities
`-np.inf` and `np.inf` used as initial alpha/beta and as initial
max/min accumulators. -/
inductive EV where
  | negInf : EV
  | fin (q : ℚ) : EV
  | posInf : EV
deriving DecidableEq

/-- Python `<=` on search values. -/
def EV.le : EV → EV → Bool
  | .negInf, _ => true
  | _, .posInf => true
  | .posInf, _ => false
  | .fin a, .fin b => decide (a ≤ b)
  | .fin _, .negInf => false

/-- Python `<` on search values. -/
def EV.lt : EV → EV → Bool
  | _, .negInf => false
  | .negInf, _ => true
  | .posInf, _ => false
  | .fin a, .fin b => decide (a < b)
  | .fin _, .posInf => true

/-- Python `max(a, b)`: returns `a` when the two compare equal. -/
def EV.max (a b : EV) : EV :=
  if EV.le b a then a else b

/-- Python `min(a, b)`: returns `a` when the two compare equal. -/
def EV.min (a b : EV) : EV :=
  if EV.le a b then a else b

/-- Python `+` on search values; in the engine it is only ever applied to
finite values (the two indeterminate cases are given an arbitrary result). -/
def EV.add : EV → EV → EV
  | .fin a, .fin b => .fin (a + b)
  | .negInf, .posInf => .fin 0
  | .posInf, .negInf => .fin 0
  | .negInf, _ => .negInf
  | .posInf, _ => .posInf
  | .fin _, .negInf => .negInf
  | .fin _, .posInf => .posInf

/-- Python `v * prob` with `prob = 1 / len(moves) > 0`. -/
def EV.scale (prob : ℚ) : EV → EV
  | .negInf => .negInf
  | .fin q => .fin (q * prob)
  | .posInf => .posInf

/-- The move loop of alphabeta_max_value (lines 81-93): place `mover`'s
piece at the landing cell, increment the shared `depth` counter, call the
child (alphabeta_min_value at the current fuel), fold with `max`, return
early without undoing the move once `max_val >= beta`, otherwise raise
alpha and undo the move before the next iteration.  The child returns the
board object it was passed as its second component. -/
def abMaxLoop (child : Board → EV → EV → ℕ → Option (EV × Board))
    (frame : Board) : List ℕ → EV → EV → ℕ → ℕ → EV → Option EV
  | [], _, _, _, _, max_val => some max_val
  | col :: rest, alpha, beta, mover, depth, max_val =>
    match get_valid_row frame col with
    | none => none
    | some row =>
      match child (setCell frame row col mover) alpha beta (depth + 1) with
      | none => none
      | some (min_val, fret) =>
        let mx := EV.max max_val min_val
        if EV.le beta mx then some mx
        else
          abMaxLoop child (setCell fret row col 0) rest (EV.max alpha mx) beta
            mover (depth + 1) mx

/-- The move loop of alphabeta_min_value (lines 119-131), symmetric to
`abMaxLoop`: fold with `min`, return early once `min_val <= alpha`,
otherwise lower beta and undo the move. -/
def abMinLoop (child : Board → EV → EV → ℕ → Option (EV × Board))
    (frame : Board) : List ℕ → EV → EV → ℕ → ℕ → EV → Option EV
  | [], _, _, _, _, min_val => some min_val
  | col :: rest, alpha, beta, mover, depth, min_val =>
    match get_valid_row frame col with
    | none => none
    | some row =>
      match child (setCell frame row col mover) alpha beta (depth + 1) with
      | none => none
      | some (max_val, fret) =>
        let mn := EV.min min_val max_val
        if EV.le mn alpha then some mn
        else
          abMinLoop child (setCell fret row col 0) rest alpha (EV.min mn beta)
            mover (depth + 1) mn

mutual

/-- AIPlayer.alphabeta_max_value (lines 59-95).  `fuel` bounds the
recursion depth of the model; the cutoff test `depth >= MAX_DEPTH or
len(valid_moves) == 0` returns the static evaluation, otherwise the move
loop runs with accumulator `-np.inf`.  The second component of the result
is the board object the caller passed in, which the function never
mutates because it works on a copy. -/
def alphabeta_max_value (fuel : ℕ) (board : Board) (alpha beta : EV)
    (player opponent : ℕ) (depth : ℕ) : Option (EV × Board) :=
  match fuel with
  | 0 => none
  | fuel + 1 =>
    if MAX_DEPTH ≤ depth ∨ (get_valid_cols board).length = 0 then
      some (EV.fin (evaluation_function board player), board)
    else
      match abMaxLoop (fun b a bt d => alphabeta_min_value fuel b a bt player opponent d)
          board (get_valid_cols board) alpha beta player depth EV.negInf with
      | none => none
      | some v => some (v, board)
termination_by structural fuel

/-- AIPlayer.alphabeta_min_value (lines 97-133), symmetric to
`alphabeta_max_value`; the opponent's pieces are placed in the loop. -/
def alphabeta_min_value (fuel : ℕ) (board : Board) (alpha beta : EV)
    (player opponent : ℕ) (depth : ℕ) : Option (EV × Board) :=
  match fuel with
  | 0 => none
  | fuel + 1 =>
    if MAX_DEPTH ≤ depth ∨ (get_valid_cols board).length = 0 then
      some (EV.fin (evaluation_function board player), board)
    else
      match abMinLoop (fun b a bt d => alphabeta_max_value fuel b a bt player opponent d)
          board (get_valid_cols board) alpha beta opponent depth EV.posInf with
      | none => none
      | some v => some (v, board)
termination_by structural fuel

end

/-- Python `max(select_moves, key=lambda x: x[0])`: the first element with
the maximal key (later elements replace the best only on strict `>`);
`none` models the ValueError raised on an empty list. -/
def bestSelect : List (EV × ℕ) → Option (EV × ℕ)
  | [] => none
  | x :: xs => some (xs.foldl (fun best y => if EV.lt best.1 y.1 then y else best) x)

/-- The top-level move loop of get_alpha_beta_move (lines 45-51): for each
valid column, place the player's piece, increment `depth`, raise `alpha`
by the value of alphabeta_min_value, record `[alpha, col]` in
`select_moves`, and undo the move. -/
def abTopLoop (child : Board → EV → EV → ℕ → Option (EV × Board))
    (frame : Board) : List ℕ → EV → EV → ℕ → ℕ → List (EV × ℕ) →
    Option (List (EV × ℕ))
  | [], _, _, _, _, select => some select
  | col :: rest, alpha, beta, mover, depth, select =>
    match get_valid_row frame col with
    | none => none
    | some row =>
      match child (setCell frame row col mover) alpha beta (depth + 1) with
      | none => none
      | some (v, fret) =>
        abTopLoop child (setCell fret row col 0) rest (EV.max alpha v) beta
          mover (depth + 1) (select ++ [(EV.max alpha v, col)])

/-- Fuel that is proved sufficient for every call the entry points make:
the Python recursion never nests more than MAX_DEPTH deep because the
depth counter grows by at least one per level. -/
def SEARCH_FUEL : ℕ := MAX_DEPTH + 1

/-- AIPlayer.get_alpha_beta_move (lines 15-57) for mover
`player_number`.  Starts with `alpha = -np.inf`, `beta = np.inf`,
`depth = 0`, copies the board, runs the top-level loop, and returns the
column of the first maximal entry of `select_moves`.  The first component
is `none` exactly when Python raises (max() of an empty sequence on a
full board); the second component is the caller's board object after the
call. -/
def get_alpha_beta_move (board : Board) (player_number : ℕ) : Option ℕ × Board :=
  let player := player_number
  let opponent := get_opponent player
  match abTopLoop
      (fun b a bt d => alphabeta_min_value SEARCH_FUEL b a bt player opponent d)
      board (get_valid_cols board) EV.negInf EV.posInf player 0 [] with
  | none => (none, board)
  | some select =>
    match bestSelect select with
    | none => (none, board)
    | some best => (some best.2, board)

/-- The move loop of expmax_value (lines 213-219): no pruning; place the
player's piece, increment `depth`, fold the child values with `max`, and
undo the move. -/
def expMaxLoop (child : Board → ℕ → Option (EV × Board))
    (frame : Board) : List ℕ → ℕ → ℕ → EV → Option EV
  | [], _, _, max_val => some max_val
  | col :: rest, mover, depth, max_val =>
    match get_valid_row frame col with
    | none => none
    | some row =>
      match child (setCell frame row col mover) (depth + 1) with
      | none => none
      | some (min_val, fret) =>
        expMaxLoop child (setCell fret row col 0) rest mover (depth + 1)
          (EV.max max_val min_val)

/-- The move loop of expmin_value (lines 242-248): place the opponent's
piece, increment `depth`, accumulate `min_val += max_val * prob`, and undo
the move; no branch is ever skipped. -/
def expMinLoop (child : Board → ℕ → Option (EV × Board))
    (frame : Board) : List ℕ → ℕ → ℕ → ℚ → EV → Option EV
  | [], _, _, _, min_val => some min_val
  | col :: rest, mover, depth, prob, min_val =>
    match get_valid_row frame col with
    | none => none
    | some row =>
      match child (setCell frame row col mover) (depth + 1) with
      | none => none
      | some (max_val, fret) =>
        expMinLoop child (setCell fret row col 0) rest mover (depth + 1) prob
          (EV.add min_val (EV.scale prob max_val))

mutual

/-- AIPlayer.expmax_value (lines 195-221): cutoff exactly as in the
alpha-beta search, otherwise the `max` move loop starting from
`-np.inf`.  The second component of the result is the caller's board
object, never mutated. -/
def expmax_value (fuel : ℕ) (board : Board) (player opponent : ℕ)
    (depth : ℕ) : Option (EV × Board) :=
  match fuel with
  | 0 => none
  | fuel + 1 =>
    if MAX_DEPTH ≤ depth ∨ (get_valid_cols board).length = 0 then
      some (EV.fin (evaluation_function board player), board)
    else
      match expMaxLoop (fun b d => expmin_value fuel b player opponent d)
          board (get_valid_cols board) player depth EV.negInf with
      | none => none
      | some v => some (v, board)
termination_by structural fuel

/-- AIPlayer.expmin_value (lines 223-250): the chance node.  `min_val`
starts at 0, `prob = 1 / len(moves)`, and the loop adds
`max_val * prob` for every legal reply. -/
def expmin_value (fuel : ℕ) (board : Board) (player opponent : ℕ)
    (depth : ℕ) : Option (EV × Board) :=
  match fuel with
  | 0 => none
  | fuel + 1 =>
    if MAX_DEPTH ≤ depth ∨ (get_valid_cols board).length = 0 then
      some (EV.fin (evaluation_function board player), board)
    else
      match expMinLoop (fun b d => expmax_value fuel b player opponent d)
          board (get_valid_cols board) opponent depth
          (1 / ((get_valid_cols board).length : ℚ)) (EV.fin 0) with
      | none => none
      | some v => some (v, board)
termination_by structural fuel

end

/-- The move loop of exp_value (lines 185-191): like `abTopLoop` but the
child is expmax_value and there is no beta. -/
def expValueLoop (child : Board → ℕ → Option (EV × Board))
    (frame : Board) : List ℕ → EV → ℕ → ℕ → List (EV × ℕ) →
    Option (List (EV × ℕ))
  | [], _, _, _, select => some select
  | col :: rest, alpha, mover, depth, select =>
    match get_valid_row frame col with
    | none => none
    | some row =>
      match child (setCell frame row col mover) (depth + 1) with
      | none => none
      | some (v, fret) =>
        expValueLoop child (setCell fret row col 0) rest (EV.max alpha v)
          mover (depth + 1) (select ++ [(EV.max alpha v, col)])

/-- AIPlayer.exp_value (lines 169-193): builds `select_moves` for the
expectimax entry point; the second component is the caller's board
object, never mutated (the function copies it first). -/
def exp_value (fuel : ℕ) (board : Board) (alpha : EV)
    (player opponent : ℕ) (depth : ℕ) : Option (List (EV × ℕ) × Board) :=
  match expValueLoop (fun b d => expmax_value fuel b player opponent d)
      board (get_valid_cols board) alpha player depth [] with
  | none => none
  | some select => some (select, board)

/-- AIPlayer.get_expectimax_move (lines 135-167) for mover
`player_number`: runs exp_value from `alpha = -np.inf`, `depth = 0` and
returns the column of the first maximal entry; `none` models the
ValueError raised on a full board. -/
def get_expectimax_move (board : Board) (player_number : ℕ) : Option ℕ × Board :=
  let player := player_number
  let opponent := get_opponent player
  match exp_value SEARCH_FUEL board EV.negInf player opponent 0 with
  | none => (none, board)
  | some (select, _) =>
    match bestSelect select with
    | none => (none, board)
    | some best => (some best.2, board)

/-- Instrumented copy of `abMaxLoop` that records, instead of the value,
the `depth` argument passed to each alphabeta_min_value child call it
makes, in call order (including the call after which the `max_val >= beta`
early return fires, which ends the list). -/
def abMaxChildDepths (child : Board → EV → EV → ℕ → Option (EV × Board))
    (frame : Board) : List ℕ → EV → EV → ℕ → ℕ → EV → Option (List ℕ)
  | [], _, _, _, _, _ => some []
  | col :: rest, alpha, beta, mover, depth, max_val =>
    match get_valid_row frame col with
    | none => none
    | some row =>
      match child (setCell frame row col mover) alpha beta (depth + 1) with
      | none => none
      | some (min_val, fret) =>
        let mx := EV.max max_val min_val
        if EV.le beta mx then some [depth + 1]
        else
          match abMaxChildDepths child (setCell fret row col 0) rest
              (EV.max alpha mx) beta mover (depth + 1) mx with
          | none => none
          | some l => some ((depth + 1) :: l)

/-- The depths alphabeta_max_value passes to its child calls: `[]` at a
cutoff node, otherwise the instrumented move loop starting from the
node's entry depth. -/
def alphabeta_max_child_depths (fuel : ℕ) (board : Board) (alpha beta : EV)
    (player opponent : ℕ) (depth : ℕ) : Option (List ℕ) :=
  match fuel with
  | 0 => none
  | fuel + 1 =>
    if MAX_DEPTH ≤ depth ∨ (get_valid_cols board).length = 0 then
      some []
    else
      abMaxChildDepths (fun b a bt d => alphabeta_min_value fuel b a bt player opponent d)
        board (get_valid_cols board) alpha beta player depth EV.negInf

/-- Instrumented copy of `abMinLoop` that records the `depth` argument
passed to each alphabeta_max_value child call, in call order (including
the call after which the `min_val <= alpha` early return fires, which
ends the list). -/
def abMinChildDepths (child : Board → EV → EV → ℕ → Option (EV × Board))
    (frame : Board) : List ℕ → EV → EV → ℕ → ℕ → EV → Option (List ℕ)
  | [], _, _, _, _, _ => some []
  | col :: rest, alpha, beta, mover, depth, min_val =>
    match get_valid_row frame col with
    | none => none
    | some row =>
      match child (setCell frame row col mover) alpha beta (depth + 1) with
      | none => none
      | some (max_val, fret) =>
        let mn := EV.min min_val max_val
        if EV.le mn alpha then some [depth + 1]
        else
          match abMinChildDepths child (setCell fret row col 0) rest
              alpha (EV.min mn beta) mover (depth + 1) mn with
          | none => none
          | some l => some ((depth + 1) :: l)

/-- The depths alphabeta_min_value passes to its child calls. -/
def alphabeta_min_child_depths (fuel : ℕ) (board : Board) (alpha beta : EV)
    (player opponent : ℕ) (depth : ℕ) : Option (List ℕ) :=
  match fuel with
  | 0 => none
  | fuel + 1 =>
    if MAX_DEPTH ≤ depth ∨ (get_valid_cols board).length = 0 then
      some []
    else
      abMinChildDepths (fun b a bt d => alphabeta_max_value fuel b a bt player opponent d)
        board (get_valid_cols board) alpha beta opponent depth EV.posInf

/-- Instrumented copy of `expMaxLoop` that records the `depth` argument
passed to each expmin_value child call, in call order (this loop has no
early return). -/
def expMaxChildDepths (child : Board → ℕ → Option (EV × Board))
    (frame : Board) : List ℕ → ℕ → ℕ → EV → Option (List ℕ)
  | [], _, _, _ => some []
  | col :: rest, mover, depth, max_val =>
    match get_valid_row frame col with
    | none => none
    | some row =>
      match child (setCell frame row col mover) (depth + 1) with
      | none => none
      | some (min_val, fret) =>
        match expMaxChildDepths child (setCell fret row col 0) rest mover
            (depth + 1) (EV.max max_val min_val) with
        | none => none
        | some l => some ((depth + 1) :: l)

/-- The depths expmax_value passes to its child calls. -/
def expmax_child_depths (fuel : ℕ) (board : Board) (player opponent : ℕ)
    (depth : ℕ) : Option (List ℕ) :=
  match fuel with
  | 0 => none
  | fuel + 1 =>
    if MAX_DEPTH ≤ depth ∨ (get_valid_cols board).length = 0 then
      some []
    else
      expMaxChildDepths (fun b d => expmin_value fuel b player opponent d)
        board (get_valid_cols board) player depth EV.negInf

/-- Instrumented copy of `expMinLoop` that records the `depth` argument
passed to each expmax_value child call, in call order (this loop has no
early return). -/
def expMinChildDepths (child : Board → ℕ → Option (EV × Board))
    (frame : Board) : List ℕ → ℕ → ℕ → ℚ → EV → Option (List ℕ)
  | [], _, _, _, _ => some []
  | col :: rest, mover, depth, prob, min_val =>
    match get_valid_row frame col with
    | none => none
    | some row =>
      match child (setCell frame row col mover) (depth + 1) with
      | none => none
      | some (max_val, fret) =>
        match expMinChildDepths child (setCell fret row col 0) rest mover
            (depth + 1) prob (EV.add min_val (EV.scale prob max_val)) with
        | none => none
        | some l => some ((depth + 1) :: l)

/-- The depths expmin_value passes to its child calls. -/
def expmin_child_depths (fuel : ℕ) (board : Board) (player opponent : ℕ)
    (depth : ℕ) : Option (List ℕ) :=
  match fuel with
  | 0 => none
  | fuel + 1 =>
    if MAX_DEPTH ≤ depth ∨ (get_valid_cols board).length = 0 then
      some []
    else
      expMinChildDepths (fun b d => expmax_value fuel b player opponent d)
        board (get_valid_cols board) opponent depth
        (1 / ((get_valid_cols board).length : ℚ)) (EV.fin 0)

/-- A completely full board (every cell owned by player 1). -/
def bFull : Board := fun _ _ => 1

/-- The empty board. -/
def bEmpty : Board := fun _ _ => 0

/-- A board whose only EMPTY cells are the tops of columns 0 and 1. -/
def bTwo : Board := fun r c => if r = 0 ∧ (c = 0 ∨ c = 1) then 0 else 1

/-- A board with a single player-1 piece in the bottom-left corner. -/
def bCorner : Board := fun r c => if r = 5 ∧ c = 0 then 1 else 0

/-- A board whose column 0 has its top cell occupied but lower cells
EMPTY (not reachable by gravity-consistent play). -/
def bFloat : Board := fun r c => if r = 0 ∧ c = 0 then 1 else 0

/-! Helper lemmas about the board primitives. -/

lemma mem_get_valid_cols {b : Board} {col : ℕ} :
    col ∈ get_valid_cols b ↔ col < 7 ∧ ∃ r, r < 6 ∧ b r col = 0 := by
  unfold get_valid_cols colArr
  rw [List.mem_filter, List.mem_range]
  constructor
  · rintro ⟨h7, hc⟩
    refine ⟨h7, ?_⟩
    have : (0 : ℕ) ∈ (List.range 6).map fun r => b r col := List.elem_iff.mp hc
    obtain ⟨r, hr, hval⟩ := List.mem_map.mp this
    exact ⟨r, List.mem_range.mp hr, hval⟩
  · rintro ⟨h7, r, hr, hval⟩
    refine ⟨h7, List.elem_iff.mpr ?_⟩
    exact List.mem_map.mpr ⟨r, List.mem_range.mpr hr, hval⟩

lemma get_valid_cols_sorted (b : Board) :
    (get_valid_cols b).Pairwise (· < ·) :=
  (List.pairwise_lt_range 7).filter _

lemma get_valid_row_eq_some {b : Board} {col : ℕ}
    (h : ∃ r, r < 6 ∧ b r col = 0) :
    ∃ row, get_valid_row b col = some row ∧ row < 6 ∧ b row col = 0 := by
  unfold get_valid_row
  obtain ⟨r, hr6, hr0⟩ := h
  cases hfind : (List.range 6).find? (fun r => b r col == 0) with
  | none =>
    exfalso
    exact List.find?_eq_none.mp hfind r (List.mem_range.mpr hr6) (by simp [hr0])
  | some row =>
    refine ⟨row, rfl, ?_, ?_⟩
    · exact List.mem_range.mp (List.mem_of_find?_eq_some hfind)
    · simpa using List.find?_some hfind

lemma setCell_restore {b : Board} {row col : ℕ} (v : ℕ) (h : b row col = 0) :
    setCell (setCell b row col v) row col 0 = b := by
  funext r c
  by_cases hrc : r = row ∧ c = col
  · obtain ⟨rfl, rfl⟩ := hrc
    simp [setCell, h]
  · simp [setCell, hrc]

/-! Helper lemmas about the extended values. -/

lemma EV.max_fin_shape {acc : EV} (q : ℚ)
    (h : acc = EV.negInf ∨ ∃ a, acc = EV.fin a) :
    ∃ m, EV.max acc (EV.fin q) = EV.fin m := by
  rcases h with rfl | ⟨a, rfl⟩
  · exact ⟨q, rfl⟩
  · unfold EV.max
    by_cases hle : EV.le (EV.fin q) (EV.fin a) = true
    · exact ⟨a, by simp [hle]⟩
    · exact ⟨q, by simp [hle]⟩

lemma EV.min_fin_shape {acc : EV} (q : ℚ)
    (h : acc = EV.posInf ∨ ∃ a, acc = EV.fin a) :
    ∃ m, EV.min acc (EV.fin q) = EV.fin m := by
  rcases h with rfl | ⟨a, rfl⟩
  · exact ⟨q, rfl⟩
  · unfold EV.min
    by_cases hle : EV.le (EV.fin a) (EV.fin q) = true
    · exact ⟨a, by simp [hle]⟩
    · exact ⟨q, by simp [hle]⟩

lemma EV.add_fin_scale (a q prob : ℚ) :
    EV.add (EV.fin a) (EV.scale prob (EV.fin q)) = EV.fin (a + q * prob) := rfl

lemma sum_map_mul (l : List ℚ) (r : ℚ) :
    (l.map (fun q => q * r)).sum = l.sum * r := by
  induction l with
  | nil => simp
  | cons x xs ih => simp [ih]; ring

/-! Totality of the move loops: on a list of columns that all have an
EMPTY cell, with a child that always returns a finite value and hands its
board argument back unchanged, each loop returns a finite value. -/

lemma abMaxLoop_fin {child : Board → EV → EV → ℕ → Option (EV × Board)}
    {frame : Board} :
    ∀ (moves : List ℕ) (alpha beta : EV) (mover depth : ℕ) (acc : EV),
    (∀ col ∈ moves, ∃ r, r < 6 ∧ frame r col = 0) →
    (∀ b a bt dd, depth < dd → ∃ q, child b a bt dd = some (EV.fin q, b)) →
    (acc = EV.negInf ∨ ∃ qa, acc = EV.fin qa) →
    (moves ≠ [] ∨ ∃ qa, acc = EV.fin qa) →
    ∃ q, abMaxLoop child frame moves alpha beta mover depth acc = some (EV.fin q) := by
  intro moves
  induction moves with
  | nil =>
    intro alpha beta mover depth acc _ _ _ hne
    rcases hne with hne | ⟨qa, rfl⟩
    · exact absurd rfl hne
    · exact ⟨qa, rfl⟩
  | cons col rest ih =>
    intro alpha beta mover depth acc hv hc hacc _
    obtain ⟨row, hrow, hr6, hcell⟩ := get_valid_row_eq_some (hv col (by simp))
    obtain ⟨qc, hqc⟩ := hc (setCell frame row col mover) alpha beta (depth + 1) (by omega)
    obtain ⟨m, hm⟩ := EV.max_fin_shape qc hacc
    simp only [abMaxLoop, hrow, hqc, hm]
    by_cases hle : EV.le beta (EV.fin m) = true
    · exact ⟨m, by simp [hle]⟩
    · simp only [hle, Bool.false_eq_true, if_false, setCell_restore mover hcell]
      exact ih (EV.max alpha (EV.fin m)) beta mover (depth + 1) (EV.fin m)
        (fun c hcm => hv c (by simp [hcm]))
        (fun b a bt dd hdd => hc b a bt dd (by omega))
        (Or.inr ⟨m, rfl⟩) (Or.inr ⟨m, rfl⟩)

lemma abMinLoop_fin {child : Board → EV → EV → ℕ → Option (EV × Board)}
    {frame : Board} :
    ∀ (moves : List ℕ) (alpha beta : EV) (mover depth : ℕ) (acc : EV),
    (∀ col ∈ moves, ∃ r, r < 6 ∧ frame r col = 0) →
    (∀ b a bt dd, depth < dd → ∃ q, child b a bt dd = some (EV.fin q, b)) →
    (acc = EV.posInf ∨ ∃ qa, acc = EV.fin qa) →
    (moves ≠ [] ∨ ∃ qa, acc = EV.fin qa) →
    ∃ q, abMinLoop child frame moves alpha beta mover depth acc = some (EV.fin q) := by
  intro moves
  induction moves with
  | nil =>
    intro alpha beta mover depth acc _ _ _ hne
    rcases hne with hne | ⟨qa, rfl⟩
    · exact absurd rfl hne
    · exact ⟨qa, rfl⟩
  | cons col rest ih =>
    intro alpha beta mover depth acc hv hc hacc _
    obtain ⟨row, hrow, hr6, hcell⟩ := get_valid_row_eq_some (hv col (by simp))
    obtain ⟨qc, hqc⟩ := hc (setCell frame row col mover) alpha beta (depth + 1) (by omega)
    obtain ⟨m, hm⟩ := EV.min_fin_shape qc hacc
    simp only [abMinLoop, hrow, hqc, hm]
    by_cases hle : EV.le (EV.fin m) alpha = true
    · exact ⟨m, by simp [hle]⟩
    · simp only [hle, Bool.false_eq_true, if_false, setCell_restore mover hcell]
      exact ih alpha (EV.min (EV.fin m) beta) mover (depth + 1) (EV.fin m)
        (fun c hcm => hv c (by simp [hcm]))
        (fun b a bt dd hdd => hc b a bt dd (by omega))
        (Or.inr ⟨m, rfl⟩) (Or.inr ⟨m, rfl⟩)

lemma expMaxLoop_fin {child : Board → ℕ → Option (EV × Board)}
    {frame : Board} :
    ∀ (moves : List ℕ) (mover depth : ℕ) (acc : EV),
    (∀ col ∈ moves, ∃ r, r < 6 ∧ frame r col = 0) →
    (∀ b dd, depth < dd → ∃ q, child b dd = some (EV.fin q, b)) →
    (acc = EV.negInf ∨ ∃ qa, acc = EV.fin qa) →
    (moves ≠ [] ∨ ∃ qa, acc = EV.fin qa) →
    ∃ q, expMaxLoop child frame moves mover depth acc = some (EV.fin q) := by
  intro moves
  induction moves with
  | nil =>
    intro mover depth acc _ _ _ hne
    rcases hne with hne | ⟨qa, rfl⟩
    · exact absurd rfl hne
    · exact ⟨qa, rfl⟩
  | cons col rest ih =>
    intro mover depth acc hv hc hacc _
    obtain ⟨row, hrow, hr6, hcell⟩ := get_valid_row_eq_some (hv col (by simp))
    obtain ⟨qc, hqc⟩ := hc (setCell frame row col mover) (depth + 1) (by omega)
    obtain ⟨m, hm⟩ := EV.max_fin_shape qc hacc
    simp only [expMaxLoop, hrow, hqc, hm, setCell_restore mover hcell]
    exact ih mover (depth + 1) (EV.fin m)
      (fun c hcm => hv c (by simp [hcm]))
      (fun b dd hdd => hc b dd (by omega))
      (Or.inr ⟨m, rfl⟩) (Or.inr ⟨m, rfl⟩)

/-- The chance-node loop computes exactly the probability-weighted sum of
its child values, one child per column, in order, with no column skipped:
starting from the finite accumulator `acc` it returns
`acc + sum of (child value) * prob`, and the i-th child is evaluated on
the board with the piece dropped into the i-th column at depth
`depth + 1 + i`. -/
lemma expMinLoop_avg {child : Board → ℕ → Option (EV × Board)}
    {frame : Board} :
    ∀ (moves : List ℕ) (mover depth : ℕ) (prob : ℚ) (acc : ℚ),
    (∀ col ∈ moves, ∃ r, r < 6 ∧ frame r col = 0) →
    (∀ b dd, depth < dd → ∃ q, child b dd = some (EV.fin q, b)) →
    ∃ qs : List ℚ, qs.length = moves.length ∧
      (∀ i, i < moves.length →
        (child (dropPiece frame (moves.getD i 0) mover) (depth + 1 + i)).map Prod.fst
          = some (EV.fin (qs.getD i 0))) ∧
      expMinLoop child frame moves mover depth prob (EV.fin acc)
        = some (EV.fin (acc + (qs.map (fun q => q * prob)).sum)) := by
  intro moves
  induction moves with
  | nil =>
    intro mover depth prob acc _ _
    exact ⟨[], rfl, by intro i hi; simp at hi, by simp [expMinLoop]⟩
  | cons col rest ih =>
    intro mover depth prob acc hv hc
    obtain ⟨row, hrow, hr6, hcell⟩ := get_valid_row_eq_some (hv col (by simp))
    obtain ⟨qc, hqc⟩ := hc (setCell frame row col mover) (depth + 1) (by omega)
    have hdrop : dropPiece frame col mover = setCell frame row col mover := by
      simp [dropPiece, hrow]
    obtain ⟨qs', hlen', hkids', hloop'⟩ :=
      ih mover (depth + 1) prob (acc + qc * prob)
        (fun c hcm => hv c (by simp [hcm]))
        (fun b dd hdd => hc b dd (by omega))
    refine ⟨qc :: qs', by simp [hlen'], ?_, ?_⟩
    · intro i hi
      cases i with
      | zero =>
        simp only [List.getD_cons_zero, Nat.add_zero, hdrop, hqc]
        rfl
      | succ i =>
        have e : depth + 1 + (i + 1) = depth + 1 + 1 + i := by omega
        simp only [List.getD_cons_succ, e]
        exact hkids' i (by simpa using hi)
    · simp only [expMinLoop, hrow, hqc, EV.add_fin_scale,
        setCell_restore mover hcell, hloop']
      congr 2
      simp only [List.map_cons, List.sum_cons]
      ring

/-! Fuel sufficiency: because every recursive call strictly increases the
depth counter and the cutoff fires at `MAX_DEPTH`, fuel exceeding
`MAX_DEPTH - depth` is enough for the value functions to return a finite
value paired with their untouched board argument. -/

lemma ab_total :
    ∀ (fuel : ℕ) (b : Board) (alpha beta : EV) (p o d : ℕ),
    0 < fuel → MAX_DEPTH < d + fuel →
    (∃ q, alphabeta_max_value fuel b alpha beta p o d = some (EV.fin q, b)) ∧
    (∃ q, alphabeta_min_value fuel b alpha beta p o d = some (EV.fin q, b)) := by
  intro fuel
  induction fuel with
  | zero => intro b alpha beta p o d hpos _; omega
  | succ f ih =>
    intro b alpha beta p o d _ hdf
    by_cases hcut : MAX_DEPTH ≤ d ∨ (get_valid_cols b).length = 0
    · exact ⟨⟨evaluation_function b p,
          by simp only [alphabeta_max_value]; rw [if_pos hcut]⟩,
        ⟨evaluation_function b p,
          by simp only [alphabeta_min_value]; rw [if_pos hcut]⟩⟩
    · have hd30 : d < MAX_DEPTH := by omega
      have hlen : (get_valid_cols b).length ≠ 0 := fun h => hcut (Or.inr h)
      have hfpos : 0 < f := by omega
      have hv : ∀ col ∈ get_valid_cols b, ∃ r, r < 6 ∧ b r col = 0 :=
        fun col hcol => (mem_get_valid_cols.mp hcol).2
      have hne : get_valid_cols b ≠ [] :=
        fun h => hlen (by simp [h])
      constructor
      · obtain ⟨q, hq⟩ :=
          @abMaxLoop_fin (fun b' a bt dd => alphabeta_min_value f b' a bt p o dd)
            b (get_valid_cols b) alpha beta p d EV.negInf hv
            (fun b' a bt dd hdd => (ih b' a bt p o dd hfpos (by omega)).2)
            (Or.inl rfl) (Or.inl hne)
        refine ⟨q, ?_⟩
        simp only [alphabeta_max_value]
        rw [if_neg hcut, hq]
      · obtain ⟨q, hq⟩ :=
          @abMinLoop_fin (fun b' a bt dd => alphabeta_max_value f b' a bt p o dd)
            b (get_valid_cols b) alpha beta o d EV.posInf hv
            (fun b' a bt dd hdd => (ih b' a bt p o dd hfpos (by omega)).1)
            (Or.inl rfl) (Or.inl hne)
        refine ⟨q, ?_⟩
        simp only [alphabeta_min_value]
        rw [if_neg hcut, hq]

lemma exp_total :
    ∀ (fuel : ℕ) (b : Board) (p o d : ℕ),
    0 < fuel → MAX_DEPTH < d + fuel →
    (∃ q, expmax_value fuel b p o d = some (EV.fin q, b)) ∧
    (∃ q, expmin_value fuel b p o d = some (EV.fin q, b)) := by
  intro fuel
  induction fuel with
  | zero => intro b p o d hpos _; omega
  | succ f ih =>
    intro b p o d _ hdf
    by_cases hcut : MAX_DEPTH ≤ d ∨ (get_valid_cols b).length = 0
    · exact ⟨⟨evaluation_function b p,
          by simp only [expmax_value]; rw [if_pos hcut]⟩,
        ⟨evaluation_function b p,
          by simp only [expmin_value]; rw [if_pos hcut]⟩⟩
    · have hd30 : d < MAX_DEPTH := by omega
      have hlen : (get_valid_cols b).length ≠ 0 := fun h => hcut (Or.inr h)
      have hfpos : 0 < f := by omega
      have hv : ∀ col ∈ get_valid_cols b, ∃ r, r < 6 ∧ b r col = 0 :=
        fun col hcol => (mem_get_valid_cols.mp hcol).2
      have hne : get_valid_cols b ≠ [] :=
        fun h => hlen (by simp [h])
      constructor
      · obtain ⟨q, hq⟩ :=
          @expMaxLoop_fin (fun b' dd => expmin_value f b' p o dd)
            b (get_valid_cols b) p d EV.negInf hv
            (fun b' dd hdd => (ih b' p o dd hfpos (by omega)).2)
            (Or.inl rfl) (Or.inl hne)
        refine ⟨q, ?_⟩
        simp only [expmax_value]
        rw [if_neg hcut, hq]
      · obtain ⟨qs, _, _, hq⟩ :=
          @expMinLoop_avg (fun b' dd => expmax_value f b' p o dd)
            b (get_valid_cols b) o d
            (1 / ((get_valid_cols b).length : ℚ)) 0 hv
            (fun b' dd hdd => (ih b' p o dd hfpos (by omega)).1)
        refine ⟨0 + (qs.map
            (fun q => q * (1 / ((get_valid_cols b).length : ℚ)))).sum, ?_⟩
        simp only [expmin_value]
        rw [if_neg hcut, hq]

/-! The top-level loops of the two entry points always extend
`select_moves` by one entry per legal column. -/

lemma abTopLoop_app {child : Board → EV → EV → ℕ → Option (EV × Board)}
    {frame : Board} :
    ∀ (moves : List ℕ) (alpha beta : EV) (mover depth : ℕ)
      (select : List (EV × ℕ)),
    (∀ col ∈ moves, ∃ r, r < 6 ∧ frame r col = 0) →
    (∀ b a bt dd, depth < dd → ∃ q, child b a bt dd = some (EV.fin q, b)) →
    ∃ sel2, abTopLoop child frame moves alpha beta mover depth select
        = some (select ++ sel2) ∧ sel2.length = moves.length := by
  intro moves
  induction moves with
  | nil =>
    intro alpha beta mover depth select _ _
    exact ⟨[], by simp [abTopLoop], rfl⟩
  | cons col rest ih =>
    intro alpha beta mover depth select hv hc
    obtain ⟨row, hrow, hr6, hcell⟩ := get_valid_row_eq_some (hv col (by simp))
    obtain ⟨qc, hqc⟩ := hc (setCell frame row col mover) alpha beta (depth + 1) (by omega)
    obtain ⟨sel2, hsel2, hlen2⟩ :=
      ih (EV.max alpha (EV.fin qc)) beta mover (depth + 1)
        (select ++ [(EV.max alpha (EV.fin qc), col)])
        (fun c hcm => hv c (by simp [hcm]))
        (fun b a bt dd hdd => hc b a bt dd (by omega))
    refine ⟨(EV.max alpha (EV.fin qc), col) :: sel2, ?_, by simp [hlen2]⟩
    simp only [abTopLoop, hrow, hqc, setCell_restore mover hcell, hsel2]
    simp

lemma expValueLoop_app {child : Board → ℕ → Option (EV × Board)}
    {frame : Board} :
    ∀ (moves : List ℕ) (alpha : EV) (mover depth : ℕ)
      (select : List (EV × ℕ)),
    (∀ col ∈ moves, ∃ r, r < 6 ∧ frame r col = 0) →
    (∀ b dd, depth < dd → ∃ q, child b dd = some (EV.fin q, b)) →
    ∃ sel2, expValueLoop child frame moves alpha mover depth select
        = some (select ++ sel2) ∧ sel2.length = moves.length := by
  intro moves
  induction moves with
  | nil =>
    intro alpha mover depth select _ _
    exact ⟨[], by simp [expValueLoop], rfl⟩
  | cons col rest ih =>
    intro alpha mover depth select hv hc
    obtain ⟨row, hrow, hr6, hcell⟩ := get_valid_row_eq_some (hv col (by simp))
    obtain ⟨qc, hqc⟩ := hc (setCell frame row col mover) (depth + 1) (by omega)
    obtain ⟨sel2, hsel2, hlen2⟩ :=
      ih (EV.max alpha (EV.fin qc)) mover (depth + 1)
        (select ++ [(EV.max alpha (EV.fin qc), col)])
        (fun c hcm => hv c (by simp [hcm]))
        (fun b dd hdd => hc b dd (by omega))
    refine ⟨(EV.max alpha (EV.fin qc), col) :: sel2, ?_, by simp [hlen2]⟩
    simp only [expValueLoop, hrow, hqc, setCell_restore mover hcell, hsel2]
    simp

/-- Whatever list of child depths the instrumented max loop records, it is
the run `entry depth + 1, entry depth + 2, ...`: the shared counter makes
the k-th child call (1-based) receive `depth + k`, not `depth + 1`. -/
lemma abMaxChildDepths_shape {child : Board → EV → EV → ℕ → Option (EV × Board)} :
    ∀ (moves : List ℕ) (frame : Board) (alpha beta : EV) (mover depth : ℕ)
      (acc : EV) (l : List ℕ),
    abMaxChildDepths child frame moves alpha beta mover depth acc = some l →
    ∃ k, k ≤ moves.length ∧ l = (List.range k).map (fun i => depth + 1 + i) := by
  intro moves
  induction moves with
  | nil =>
    intro frame alpha beta mover depth acc l h
    simp only [abMaxChildDepths, Option.some.injEq] at h
    exact ⟨0, by simp, by simp [h.symm]⟩
  | cons col rest ih =>
    intro frame alpha beta mover depth acc l h
    simp only [abMaxChildDepths] at h
    split at h
    · exact absurd h (by simp)
    · split at h
      · exact absurd h (by simp)
      · split at h
        · refine ⟨1, by simp, ?_⟩
          simp only [Option.some.injEq] at h
          rw [← h]
          rw [show List.range 1 = [0] from rfl]
          simp
        · split at h
          · exact absurd h (by simp)
          · rename_i l' heq
            simp only [Option.some.injEq] at h
            obtain ⟨k', hk', rfl⟩ := ih _ _ _ _ _ _ _ heq
            refine ⟨k' + 1, by simp [Nat.succ_le_succ hk'], ?_⟩
            rw [← h, List.range_succ_eq_map, List.map_cons, List.map_map]
            refine congrArg₂ _ (by omega) (List.map_congr_left ?_)
            intro a _
            simp [Function.comp]
            omega

/-- Like `abMaxChildDepths_shape`, for the min-node loop. -/
lemma abMinChildDepths_shape {child : Board → EV → EV → ℕ → Option (EV × Board)} :
    ∀ (moves : List ℕ) (frame : Board) (alpha beta : EV) (mover depth : ℕ)
      (acc : EV) (l : List ℕ),
    abMinChildDepths child frame moves alpha beta mover depth acc = some l →
    ∃ k, k ≤ moves.length ∧ l = (List.range k).map (fun i => depth + 1 + i) := by
  intro moves
  induction moves with
  | nil =>
    intro frame alpha beta mover depth acc l h
    simp only [abMinChildDepths, Option.some.injEq] at h
    exact ⟨0, by simp, by simp [h.symm]⟩
  | cons col rest ih =>
    intro frame alpha beta mover depth acc l h
    simp only [abMinChildDepths] at h
    split at h
    · exact absurd h (by simp)
    · split at h
      · exact absurd h (by simp)
      · split at h
        · refine ⟨1, by simp, ?_⟩
          simp only [Option.some.injEq] at h
          rw [← h]
          rw [show List.range 1 = [0] from rfl]
          simp
        · split at h
          · exact absurd h (by simp)
          · rename_i l' heq
            simp only [Option.some.injEq] at h
            obtain ⟨k', hk', rfl⟩ := ih _ _ _ _ _ _ _ heq
            refine ⟨k' + 1, by simp [Nat.succ_le_succ hk'], ?_⟩
            rw [← h, List.range_succ_eq_map, List.map_cons, List.map_map]
            refine congrArg₂ _ (by omega) (List.map_congr_left ?_)
            intro a _
            simp [Function.comp]
            omega

/-- Like `abMaxChildDepths_shape`, for the expectimax max-node loop. -/
lemma expMaxChildDepths_shape {child : Board → ℕ → Option (EV × Board)} :
    ∀ (moves : List ℕ) (frame : Board) (mover depth : ℕ) (acc : EV)
      (l : List ℕ),
    expMaxChildDepths child frame moves mover depth acc = some l →
    ∃ k, k ≤ moves.length ∧ l = (List.range k).map (fun i => depth + 1 + i) := by
  intro moves
  induction moves with
  | nil =>
    intro frame mover depth acc l h
    simp only [expMaxChildDepths, Option.some.injEq] at h
    exact ⟨0, by simp, by simp [h.symm]⟩
  | cons col rest ih =>
    intro frame mover depth acc l h
    simp only [expMaxChildDepths] at h
    split at h
    · exact absurd h (by simp)
    · split at h
      · exact absurd h (by simp)
      · split at h
        · exact absurd h (by simp)
        · rename_i l' heq
          simp only [Option.some.injEq] at h
          obtain ⟨k', hk', rfl⟩ := ih _ _ _ _ _ heq
          refine ⟨k' + 1, by simp [Nat.succ_le_succ hk'], ?_⟩
          rw [← h, List.range_succ_eq_map, List.map_cons, List.map_map]
          refine congrArg₂ _ (by omega) (List.map_congr_left ?_)
          intro a _
          simp [Function.comp]
          omega

/-- Like `abMaxChildDepths_shape`, for the chance-node loop. -/
lemma expMinChildDepths_shape {child : Board → ℕ → Option (EV × Board)} :
    ∀ (moves : List ℕ) (frame : Board) (mover depth : ℕ) (prob : ℚ)
      (acc : EV) (l : List ℕ),
    expMinChildDepths child frame moves mover depth prob acc = some l →
    ∃ k, k ≤ moves.length ∧ l = (List.range k).map (fun i => depth + 1 + i) := by
  intro moves
  induction moves with
  | nil =>
    intro frame mover depth prob acc l h
    simp only [expMinChildDepths, Option.some.injEq] at h
    exact ⟨0, by simp, by simp [h.symm]⟩
  | cons col rest ih =>
    intro frame mover depth prob acc l h
    simp only [expMinChildDepths] at h
    split at h
    · exact absurd h (by simp)
    · split at h
      · exact absurd h (by simp)
      · split at h
        · exact absurd h (by simp)
        · rename_i l' heq
          simp only [Option.some.injEq] at h
          obtain ⟨k', hk', rfl⟩ := ih _ _ _ _ _ _ heq
          refine ⟨k' + 1, by simp [Nat.succ_le_succ hk'], ?_⟩
          rw [← h, List.range_succ_eq_map, List.map_cons, List.map_map]
          refine congrArg₂ _ (by omega) (List.map_congr_left ?_)
          intro a _
          simp [Function.comp]
          omega

/-- In a 4-cell window whose cells are EMPTY, the player's or the
opponent's, the three counts add up to the window length. -/
lemma count_split {frame : List ℕ} {p o : ℕ} (hp0 : p ≠ 0) (ho0 : o ≠ 0)
    (hpo : p ≠ o) (hcells : ∀ c ∈ frame, c = 0 ∨ c = p ∨ c = o) :
    frame.count p + frame.count o + frame.count 0 = frame.length := by
  induction frame with
  | nil => simp
  | cons c rest ih =>
    have hc := hcells c (by simp)
    have hrest := ih (fun x hx => hcells x (by simp [hx]))
    rcases hc with rfl | rfl | rfl <;>
      simp only [List.count_cons, List.length_cons, beq_iff_eq] <;>
      split_ifs <;> omega

/-! Claim theorems. -/

/-- C1: the static evaluator does not visit the 12 south-east diagonal
windows.  On the board with a single player-1 piece in the bottom-left
corner, `evaluation_function` returns 10 (the corner lies in one
horizontal and one vertical window and no window of the third or fourth
loop nest), while the sum over the 69 true windows of the four
orientations is 15 (its anti-diagonal window also scores 5): the source's
fourth loop nest reads column `col+1` instead of `col+i`. -/
theorem eval_fourth_loop_not_antidiagonal :
    evaluation_function bCorner 1 = 10 ∧ spec_window_sum bCorner 1 = 15 ∧
    evaluation_function bCorner 1 ≠ spec_window_sum bCorner 1 := by
  refine ⟨by decide, by decide, by decide⟩

/-- C2: get_valid_row scans the rows top-down (`range(0, 6, 1)`), so on
the empty board it returns row 0 for column 3 even though the floor
row 5 of that column is EMPTY, contradicting the landing-row reading
(the first EMPTY cell scanning from the floor upward would be row 5). -/
theorem get_valid_row_returns_topmost :
    get_valid_row bEmpty 3 = some 0 ∧ bEmpty 5 3 = 0 := by
  refine ⟨by decide, by decide⟩

/-- C3 counterexample: on the board whose two legal columns are 0 and 1,
the root max node entered with depth 0 passes depth 1 to its first child
call and depth 2 to its second, so the depth passed into a recursive
call is not always one greater than the depth of its parent node. -/
theorem depth_counter_cex :
    alphabeta_max_child_depths SEARCH_FUEL bTwo EV.negInf EV.posInf 1 2 0
        = some [1, 2] ∧
    ¬ ∀ x ∈ [1, 2], x = 0 + 1 := by
  refine ⟨by decide, by decide⟩

/-- C3 amended: in both searches the depth counter is shared across a
node's move loop, so in each of the four recursive value functions the
k-th child call (1-based) of a node entered at depth d receives depth
d + k, not d + 1; and all four value functions return the static
evaluation under the identical cutoff test, entry depth at least
MAX_DEPTH or no legal columns. -/
theorem depth_counter_amended :
    (∀ (fuel : ℕ) (b : Board) (alpha beta : EV) (p o d : ℕ) (l : List ℕ),
      alphabeta_max_child_depths fuel b alpha beta p o d = some l →
      ∃ k, k ≤ (get_valid_cols b).length ∧
        l = (List.range k).map (fun i => d + 1 + i)) ∧
    (∀ (fuel : ℕ) (b : Board) (alpha beta : EV) (p o d : ℕ) (l : List ℕ),
      alphabeta_min_child_depths fuel b alpha beta p o d = some l →
      ∃ k, k ≤ (get_valid_cols b).length ∧
        l = (List.range k).map (fun i => d + 1 + i)) ∧
    (∀ (fuel : ℕ) (b : Board) (p o d : ℕ) (l : List ℕ),
      expmax_child_depths fuel b p o d = some l →
      ∃ k, k ≤ (get_valid_cols b).length ∧
        l = (List.range k).map (fun i => d + 1 + i)) ∧
    (∀ (fuel : ℕ) (b : Board) (p o d : ℕ) (l : List ℕ),
      expmin_child_depths fuel b p o d = some l →
      ∃ k, k ≤ (get_valid_cols b).length ∧
        l = (List.range k).map (fun i => d + 1 + i)) ∧
    (∀ (fuel : ℕ) (b : Board) (alpha beta : EV) (p o d : ℕ),
      MAX_DEPTH ≤ d ∨ get_valid_cols b = [] →
      alphabeta_max_value (fuel + 1) b alpha beta p o d
          = some (EV.fin (evaluation_function b p), b) ∧
      alphabeta_min_value (fuel + 1) b alpha beta p o d
          = some (EV.fin (evaluation_function b p), b)) ∧
    (∀ (fuel : ℕ) (b : Board) (p o d : ℕ),
      MAX_DEPTH ≤ d ∨ get_valid_cols b = [] →
      expmax_value (fuel + 1) b p o d
          = some (EV.fin (evaluation_function b p), b) ∧
      expmin_value (fuel + 1) b p o d
          = some (EV.fin (evaluation_function b p), b)) := by
  refine ⟨?_, ?_, ?_, ?_, ?_, ?_⟩
  · intro fuel b alpha beta p o d l h
    cases fuel with
    | zero => simp [alphabeta_max_child_depths] at h
    | succ f =>
      simp only [alphabeta_max_child_depths] at h
      split at h
      · simp only [Option.some.injEq] at h
        exact ⟨0, by simp, by simp [h.symm]⟩
      · exact abMaxChildDepths_shape _ _ _ _ _ _ _ _ h
  · intro fuel b alpha beta p o d l h
    cases fuel with
    | zero => simp [alphabeta_min_child_depths] at h
    | succ f =>
      simp only [alphabeta_min_child_depths] at h
      split at h
      · simp only [Option.some.injEq] at h
        exact ⟨0, by simp, by simp [h.symm]⟩
      · exact abMinChildDepths_shape _ _ _ _ _ _ _ _ h
  · intro fuel b p o d l h
    cases fuel with
    | zero => simp [expmax_child_depths] at h
    | succ f =>
      simp only [expmax_child_depths] at h
      split at h
      · simp only [Option.some.injEq] at h
        exact ⟨0, by simp, by simp [h.symm]⟩
      · exact expMaxChildDepths_shape _ _ _ _ _ _ h
  · intro fuel b p o d l h
    cases fuel with
    | zero => simp [expmin_child_depths] at h
    | succ f =>
      simp only [expmin_child_depths] at h
      split at h
      · simp only [Option.some.injEq] at h
        exact ⟨0, by simp, by simp [h.symm]⟩
      · exact expMinChildDepths_shape _ _ _ _ _ _ _ h
  · intro fuel b alpha beta p o d h
    have hcond : MAX_DEPTH ≤ d ∨ (get_valid_cols b).length = 0 := by
      rcases h with h | h
      · exact Or.inl h
      · exact Or.inr (by simp [h])
    exact ⟨by simp only [alphabeta_max_value]; rw [if_pos hcond],
      by simp only [alphabeta_min_value]; rw [if_pos hcond]⟩
  · intro fuel b p o d h
    have hcond : MAX_DEPTH ≤ d ∨ (get_valid_cols b).length = 0 := by
      rcases h with h | h
      · exact Or.inl h
      · exact Or.inr (by simp [h])
    exact ⟨by simp only [expmax_value]; rw [if_pos hcond],
      by simp only [expmin_value]; rw [if_pos hcond]⟩

/-- Witness for the amended C3 at concrete inputs: the alpha-beta max
trace [1, 2] from entry depth 0, the chance-node trace [6, 7] from entry
depth 5, and the expectimax cutoff on the full board. -/
theorem depth_counter_amended_w :
    (∃ k, k ≤ (get_valid_cols bTwo).length ∧
      ([1, 2] : List ℕ) = (List.range k).map (fun i => 0 + 1 + i)) ∧
    (∃ k, k ≤ (get_valid_cols bTwo).length ∧
      ([6, 7] : List ℕ) = (List.range k).map (fun i => 5 + 1 + i)) ∧
    (expmax_value 1 bFull 1 2 0
        = some (EV.fin (evaluation_function bFull 1), bFull) ∧
     expmin_value 1 bFull 1 2 0
        = some (EV.fin (evaluation_function bFull 1), bFull)) :=
  ⟨depth_counter_amended.1 SEARCH_FUEL bTwo EV.negInf EV.posInf 1 2 0 [1, 2]
      (by decide),
   depth_counter_amended.2.2.2.1 SEARCH_FUEL bTwo 1 2 5 [6, 7] (by decide),
   depth_counter_amended.2.2.2.2.2 0 bFull 1 2 0 (by decide)⟩

/-- C4: eval_frame scores a window with p player cells, o opponent cells
and e EMPTY cells (p + o + e = 4) exactly by the table: 100, 69, 30, 5
for p = 4 / p = 3, e = 1 / p = 2, e = 2 / p = 1, e = 3, and -95, -80,
-30, -5 for the mirrored opponent counts, and 0 for every window
containing pieces of both players. -/
theorem eval_frame_table (frame : List ℕ) (player opponent : ℕ)
    (hp0 : player ≠ 0) (ho0 : opponent ≠ 0) (hpo : player ≠ opponent)
    (hlen : frame.length = 4)
    (hcells : ∀ c ∈ frame, c = 0 ∨ c = player ∨ c = opponent) :
    (frame.count player = 4 → eval_frame frame player opponent = 100) ∧
    (frame.count player = 3 ∧ frame.count 0 = 1 →
      eval_frame frame player opponent = 69) ∧
    (frame.count player = 2 ∧ frame.count 0 = 2 →
      eval_frame frame player opponent = 30) ∧
    (frame.count player = 1 ∧ frame.count 0 = 3 →
      eval_frame frame player opponent = 5) ∧
    (frame.count opponent = 4 → eval_frame frame player opponent = -95) ∧
    (frame.count opponent = 3 ∧ frame.count 0 = 1 →
      eval_frame frame player opponent = -80) ∧
    (frame.count opponent = 2 ∧ frame.count 0 = 2 →
      eval_frame frame player opponent = -30) ∧
    (frame.count opponent = 1 ∧ frame.count 0 = 3 →
      eval_frame frame player opponent = -5) ∧
    (0 < frame.count player ∧ 0 < frame.count opponent →
      eval_frame frame player opponent = 0) := by
  have hsum := count_split hp0 ho0 hpo hcells
  rw [hlen] at hsum
  refine ⟨?_, ?_, ?_, ?_, ?_, ?_, ?_, ?_, ?_⟩ <;>
    · intro h
      simp only [eval_frame]
      split_ifs <;> omega

/-- Witness for C4 at a concrete window. -/
theorem eval_frame_table_w : eval_frame [1, 1, 1, 0] 1 2 = 69 :=
  (eval_frame_table [1, 1, 1, 0] 1 2 (by decide) (by decide) (by decide)
    (by decide) (by decide)).2.1 (by decide)

/-- C5: a chance node not at the cutoff with n legal replies returns
exactly the uniform average of the n recursively computed reply values,
each weighted 1/n through the running sum, and no reply is skipped: the
i-th reply value is the expectimax max-value of the board with the
opponent's piece dropped into the i-th legal column. -/
theorem expmin_uniform_average (fuel : ℕ) (b : Board)
    (player opponent depth : ℕ)
    (hd : depth < MAX_DEPTH) (hne : get_valid_cols b ≠ [])
    (hfuel : MAX_DEPTH < depth + 1 + fuel) :
    ∃ qs : List ℚ, qs.length = (get_valid_cols b).length ∧
      (∀ i, i < (get_valid_cols b).length →
        (expmax_value fuel (dropPiece b ((get_valid_cols b).getD i 0) opponent)
            player opponent (depth + 1 + i)).map Prod.fst
          = some (EV.fin (qs.getD i 0))) ∧
      (expmin_value (fuel + 1) b player opponent depth).map Prod.fst
        = some (EV.fin (qs.sum / ((get_valid_cols b).length : ℚ))) := by
  have hfpos : 0 < fuel := by omega
  have hv : ∀ col ∈ get_valid_cols b, ∃ r, r < 6 ∧ b r col = 0 :=
    fun col hcol => (mem_get_valid_cols.mp hcol).2
  have hc : ∀ b' dd, depth < dd →
      ∃ q, expmax_value fuel b' player opponent dd = some (EV.fin q, b') :=
    fun b' dd hdd => (exp_total fuel b' player opponent dd hfpos (by omega)).1
  obtain ⟨qs, hlen, hkids, hloop⟩ :=
    @expMinLoop_avg (fun b' dd => expmax_value fuel b' player opponent dd) b
      (get_valid_cols b) opponent depth
      (1 / ((get_valid_cols b).length : ℚ)) 0 hv hc
  refine ⟨qs, hlen, hkids, ?_⟩
  have hlen0 : (get_valid_cols b).length ≠ 0 :=
    fun h => hne (List.length_eq_zero.mp h)
  have hcut : ¬ (MAX_DEPTH ≤ depth ∨ (get_valid_cols b).length = 0) := by
    intro hcon
    rcases hcon with hcon | hcon
    · omega
    · exact hlen0 hcon
  rw [zero_add, sum_map_mul, mul_one_div] at hloop
  simp only [expmin_value]
  rw [if_neg hcut, hloop]
  rfl

/-- Witness for C5 at a concrete chance node with two legal replies. -/
theorem expmin_uniform_average_w :
    ∃ qs : List ℚ, qs.length = (get_valid_cols bTwo).length ∧
      (∀ i, i < (get_valid_cols bTwo).length →
        (expmax_value 1 (dropPiece bTwo ((get_valid_cols bTwo).getD i 0) 2)
            1 2 (29 + 1 + i)).map Prod.fst
          = some (EV.fin (qs.getD i 0))) ∧
      (expmin_value 2 bTwo 1 2 29).map Prod.fst
        = some (EV.fin (qs.sum / ((get_valid_cols bTwo).length : ℚ))) :=
  expmin_uniform_average 1 bTwo 1 2 29 (by decide) (by decide) (by decide)

/-- C6 counterexample: on a board whose column 0 has its top cell
occupied but a lower cell EMPTY, get_valid_cols still includes column 0,
so membership is not equivalent to the top cell being EMPTY on boards
not reachable by gravity-consistent play. -/
theorem get_valid_cols_top_occupied_cex :
    0 ∈ get_valid_cols bFloat ∧ bFloat 0 0 ≠ 0 := by
  refine ⟨by decide, by decide⟩

/-- C6 amended: for every board, get_valid_cols returns strictly
ascending column indices below 7, and a column is included exactly when
it contains at least one EMPTY cell (which on gravity-consistent boards
is equivalent to its top cell being EMPTY). -/
theorem get_valid_cols_amended (b : Board) :
    (get_valid_cols b).Pairwise (· < ·) ∧
    (∀ col, col ∈ get_valid_cols b ↔ col < 7 ∧ ∃ r, r < 6 ∧ b r col = 0) :=
  ⟨get_valid_cols_sorted b, fun _ => mem_get_valid_cols⟩

/-- C7: on a board with zero legal columns both decision entry points
fail (the model returns no column; in Python `max()` raises ValueError on
the empty `select_moves`), never silently returning a column. -/
theorem decision_fails_on_full_board (b : Board) (p : ℕ)
    (h : get_valid_cols b = []) :
    (get_alpha_beta_move b p).1 = none ∧ (get_expectimax_move b p).1 = none := by
  constructor
  · simp only [get_alpha_beta_move, h]
    simp [abTopLoop, bestSelect]
  · simp only [get_expectimax_move, exp_value, h]
    simp [expValueLoop, bestSelect]

/-- Witness for C7 on the full board. -/
theorem decision_fails_on_full_board_w :
    (get_alpha_beta_move bFull 1).1 = none ∧
    (get_expectimax_move bFull 1).1 = none :=
  decision_fails_on_full_board bFull 1 (by decide)

/-- C8: after either decision call returns, the board object the caller
passed in is unchanged: both entry points copy it and mutate only the
copy, so the second component of the result (the caller's array after
the call) is the input board itself. -/
theorem decision_preserves_board (b : Board) (p : ℕ) :
    (get_alpha_beta_move b p).2 = b ∧ (get_expectimax_move b p).2 = b := by
  constructor
  · simp only [get_alpha_beta_move]
    split
    · rfl
    · split <;> rfl
  · simp only [get_expectimax_move]
    split
    · rfl
    · split <;> rfl

/-- C9: the searches terminate: any fuel exceeding `MAX_DEPTH - depth`
is enough for all four recursive value functions to return (the depth
counter grows by at least one per recursive level and the cutoff fires
at MAX_DEPTH or when no legal column remains), and on any board with at
least one legal column both decision entry points return a column. -/
theorem search_terminates :
    (∀ (fuel : ℕ) (b : Board) (alpha beta : EV) (p o d : ℕ),
      0 < fuel → MAX_DEPTH < d + fuel →
      (∃ q, alphabeta_max_value fuel b alpha beta p o d = some (EV.fin q, b)) ∧
      (∃ q, alphabeta_min_value fuel b alpha beta p o d = some (EV.fin q, b))) ∧
    (∀ (fuel : ℕ) (b : Board) (p o d : ℕ),
      0 < fuel → MAX_DEPTH < d + fuel →
      (∃ q, expmax_value fuel b p o d = some (EV.fin q, b)) ∧
      (∃ q, expmin_value fuel b p o d = some (EV.fin q, b))) ∧
    (∀ (b : Board) (p : ℕ), get_valid_cols b ≠ [] →
      (∃ col, (get_alpha_beta_move b p).1 = some col) ∧
      (∃ col, (get_expectimax_move b p).1 = some col)) := by
  refine ⟨ab_total, exp_total, ?_⟩
  intro b p hne
  have hv : ∀ col ∈ get_valid_cols b, ∃ r, r < 6 ∧ b r col = 0 :=
    fun col hcol => (mem_get_valid_cols.mp hcol).2
  obtain ⟨sel2, hsel, hlen⟩ :=
    @abTopLoop_app
      (fun b' a bt dd => alphabeta_min_value SEARCH_FUEL b' a bt p (get_opponent p) dd)
      b (get_valid_cols b) EV.negInf EV.posInf p 0 [] hv
      (fun b' a bt dd hdd =>
        (ab_total SEARCH_FUEL b' a bt p (get_opponent p) dd
          (Nat.succ_pos MAX_DEPTH) (by simp only [SEARCH_FUEL]; omega)).2)
  obtain ⟨sel2e, hsele, hlene⟩ :=
    @expValueLoop_app
      (fun b' dd => expmax_value SEARCH_FUEL b' p (get_opponent p) dd)
      b (get_valid_cols b) EV.negInf p 0 [] hv
      (fun b' dd hdd =>
        (exp_total SEARCH_FUEL b' p (get_opponent p) dd
          (Nat.succ_pos MAX_DEPTH) (by simp only [SEARCH_FUEL]; omega)).1)
  constructor
  · cases sel2 with
    | nil =>
      exact absurd (List.length_eq_zero.mp (by simpa using hlen.symm)) hne
    | cons x xs =>
      refine ⟨(xs.foldl (fun best y => if EV.lt best.1 y.1 then y else best) x).2, ?_⟩
      simp only [get_alpha_beta_move]
      rw [hsel]
      simp [bestSelect]
  · cases sel2e with
    | nil =>
      exact absurd (List.length_eq_zero.mp (by simpa using hlene.symm)) hne
    | cons x xs =>
      refine ⟨(xs.foldl (fun best y => if EV.lt best.1 y.1 then y else best) x).2, ?_⟩
      simp only [get_expectimax_move, exp_value]
      rw [hsele]
      simp [bestSelect]

/-- Witness for C9: the max-value function at fuel 31 on the full board,
and the alpha-beta entry point on a board with two legal columns. -/
theorem search_terminates_w :
    (∃ q, alphabeta_max_value 31 bFull EV.negInf EV.posInf 1 2 0
        = some (EV.fin q, bFull)) ∧
    (∃ col, (get_alpha_beta_move bTwo 1).1 = some col) :=
  ⟨(search_terminates.1 31 bFull EV.negInf EV.posInf 1 2 0
      (by decide) (by decide)).1,
    (search_terminates.2.2 bTwo 1 (by decide)).1⟩

/-- C10: every recursive search helper copies its board argument before
writing any cell, so whenever it returns, the board object the caller
passed in (the second component of the result) is the argument itself;
in particular the alpha/beta early return, which skips the undo write in
the helper's own local copy, leaks nothing into any other frame's
board. -/
theorem helpers_preserve_board (fuel : ℕ) (b : Board) (alpha beta : EV)
    (p o d : ℕ) :
    (∀ v bOut, alphabeta_max_value fuel b alpha beta p o d = some (v, bOut) →
      bOut = b) ∧
    (∀ v bOut, alphabeta_min_value fuel b alpha beta p o d = some (v, bOut) →
      bOut = b) ∧
    (∀ v bOut, expmax_value fuel b p o d = some (v, bOut) → bOut = b) ∧
    (∀ v bOut, expmin_value fuel b p o d = some (v, bOut) → bOut = b) ∧
    (∀ sel bOut, exp_value fuel b alpha p o d = some (sel, bOut) → bOut = b) := by
  refine ⟨?_, ?_, ?_, ?_, ?_⟩
  · intro v bOut h
    cases fuel with
    | zero => simp [alphabeta_max_value] at h
    | succ f =>
      simp only [alphabeta_max_value] at h
      split at h
      · simp only [Option.some.injEq, Prod.mk.injEq] at h
        exact h.2.symm
      · split at h
        · exact absurd h (by simp)
        · simp only [Option.some.injEq, Prod.mk.injEq] at h
          exact h.2.symm
  · intro v bOut h
    cases fuel with
    | zero => simp [alphabeta_min_value] at h
    | succ f =>
      simp only [alphabeta_min_value] at h
      split at h
      · simp only [Option.some.injEq, Prod.mk.injEq] at h
        exact h.2.symm
      · split at h
        · exact absurd h (by simp)
        · simp only [Option.some.injEq, Prod.mk.injEq] at h
          exact h.2.symm
  · intro v bOut h
    cases fuel with
    | zero => simp [expmax_value] at h
    | succ f =>
      simp only [expmax_value] at h
      split at h
      · simp only [Option.some.injEq, Prod.mk.injEq] at h
        exact h.2.symm
      · split at h
        · exact absurd h (by simp)
        · simp only [Option.some.injEq, Prod.mk.injEq] at h
          exact h.2.symm
  · intro v bOut h
    cases fuel with
    | zero => simp [expmin_value] at h
    | succ f =>
      simp only [expmin_value] at h
      split at h
      · simp only [Option.some.injEq, Prod.mk.injEq] at h
        exact h.2.symm
      · split at h
        · exact absurd h (by simp)
        · simp only [Option.some.injEq, Prod.mk.injEq] at h
          exact h.2.symm
  · intro sel bOut h
    simp only [exp_value] at h
    split at h
    · exact absurd h (by simp)
    · simp only [Option.some.injEq, Prod.mk.injEq] at h
      exact h.2.symm

/-- Witness for C10: the max-value helper at a cutoff node returns the
empty board untouched. -/
theorem helpers_preserve_board_w :
    alphabeta_max_value 1 bEmpty EV.negInf EV.posInf 1 2 30
        = some (EV.fin ((0 : ℤ) : ℚ), bEmpty) ∧ bEmpty = bEmpty :=
  ⟨rfl, (helpers_preserve_board 1 bEmpty EV.negInf EV.posInf 1 2 30).1
      (EV.fin ((0 : ℤ) : ℚ)) bEmpty rfl⟩

end Connect4
